import Mathlib

/-!
Shallow embedding of `src/core.py` of the Golf-Calculators repository
(Hardy golf-shot distributions), together with proofs of the specification
claims.  Python floats are modelled by exact rationals `ℚ`; Python
exceptions by an `Except PyErr` result.
-/

/-- Python exceptions raised by the core module, distinguished by origin:
`invalidParameter` is the explicit `ValueError` raised by the input checks;
`negativeDimensions` is the `ValueError` numpy raises from `np.zeros` on a
negative size; `indexError` is the `IndexError` from assigning `p_state[0]`
on an empty array; `boundExceeded` is the `RuntimeError` of the simulator. -/
inductive PyErr where
  | invalidParameter
  | negativeDimensions
  | indexError
  | boundExceeded
deriving DecidableEq, Repr

/-- Shot values: `values = np.array([2, 0, 1])` indexed by the sampled
`shot_type` (index 0 drawn with probability `p`, index 1 with `q`,
index 2 with `1 - p - q`). -/
def shotValue : Fin 3 → ℤ
  | 0 => 2
  | 1 => 0
  | 2 => 1

/-- Loop of `simulate_hole_hardy` (src/core.py lines 17-25): while the
accumulated value is below par, draw the next shot, add its value,
increment the score, and fail once the score exceeds `max_shots`.
The pseudorandom stream is modelled as the sequence of drawn shot types;
draw number `score` is `stream score`. -/
def simLoop (par_m : ℤ) (stream : ℕ → Fin 3) (max_shots : ℕ)
    (score : ℕ) (total_value : ℤ) : Except PyErr ℕ :=
  if total_value < par_m then
    if _h : score + 1 > max_shots then .error .boundExceeded
    else simLoop par_m stream max_shots (score + 1)
      (total_value + shotValue (stream score))
  else .ok score
termination_by max_shots + 1 - score
decreasing_by omega

/-- Embedding of `simulate_hole_hardy` (src/core.py lines 4-25). -/
def simulate_hole_hardy (par_m : ℤ) (p q : ℚ) (stream : ℕ → Fin 3)
    (max_shots : ℕ) : Except PyErr ℕ :=
  if p < 0 ∨ q < 0 ∨ p + q ≥ 1 then .error .invalidParameter
  else simLoop par_m stream max_shots 0 0

/-- Accumulated value after the first `k` shots of the stream. -/
def totalAfter (stream : ℕ → Fin 3) (k : ℕ) : ℤ :=
  ∑ t ∈ Finset.range k, shotValue (stream t)

/-- Transient-state probability vector `np.zeros(par); p_state[i] = 1.0`,
extended by zero outside the array. -/
def initStateAt (i : ℕ) : ℕ → ℚ :=
  fun t => if t = i then 1 else 0

/-- One step of the single-boundary DP (src/core.py lines 78-99), gather
form: entry `t` of `p_state_next` receives `prob_here * probs_good` from
`s = t - 2` when `new_val = s + 2 < par` (the non-absorbing branch),
`prob_here * probs_ord` from `s = t - 1` when `new_val = s + 1 < par`, and
`prob_here * probs_bad` from `s = t` always; entries at or beyond `par` do
not exist in the array and stay zero.  The source's `if prob_here == 0:
continue` skip only avoids adding exact zeros. -/
def stepState (par : ℕ) (pg po pb : ℚ) (v : ℕ → ℚ) : ℕ → ℚ := fun t =>
  (if 2 ≤ t ∧ t < par then v (t - 2) * pg else 0)
  + (if 1 ≤ t ∧ t < par then v (t - 1) * po else 0)
  + (if t < par then v t * pb else 0)

/-- Mass absorbed in one step of the single-boundary DP: the additions to
`pmf[shot - 1]` (src/core.py lines 85-95), i.e. `prob_here * probs_good`
whenever `s + 2 >= par` and `prob_here * probs_ord` whenever `s + 1 >= par`,
summed over the transient states `s` in `range(par)`. -/
def stepAbsorbed (par : ℕ) (pg po : ℚ) (v : ℕ → ℚ) : ℚ :=
  ∑ s ∈ Finset.range par,
    ((if par ≤ s + 2 then v s * pg else 0)
      + (if par ≤ s + 1 then v s * po else 0))

/-- State vector after `n` steps of the single-boundary DP. -/
def iterState (par : ℕ) (pg po pb : ℚ) (v : ℕ → ℚ) : ℕ → (ℕ → ℚ)
  | 0 => v
  | n + 1 => stepState par pg po pb (iterState par pg po pb v n)

/-- The `pmf` array of `hardy_distribution_markov`: entry `shot - 1`
(for `shot = 1, ..., n_max`) is the mass absorbed in step `shot`, i.e. the
absorption out of the state vector after `shot - 1` steps. -/
def singlePmfList (par : ℕ) (pg po pb : ℚ) (v : ℕ → ℚ) (n_max : ℕ) : List ℚ :=
  (List.range n_max).map fun k => stepAbsorbed par pg po (iterState par pg po pb v k)

/-- Embedding of `scores = np.arange(1, n_max + 1)`. -/
def scoresList (n_max : ℕ) : List ℤ :=
  (List.range n_max).map fun k => (k : ℤ) + 1

/-- Embedding of `hardy_distribution_markov` (src/core.py lines 42-102).
The source validates only the probabilities (line 65); `par_m` is not
checked, so `np.zeros(par_m)` raises numpy's ValueError for negative
`par_m`, and `p_state[0] = 1.0` raises IndexError for `par_m = 0`. -/
def hardy_distribution_markov (par_m : ℤ) (p q : ℚ) (n_max : ℕ) :
    Except PyErr (List ℤ × List ℚ) :=
  if p < 0 ∨ q < 0 ∨ p + q ≥ 1 then .error .invalidParameter
  else if par_m < 0 then .error .negativeDimensions
  else if par_m = 0 then .error .indexError
  else .ok (scoresList n_max,
    singlePmfList par_m.toNat p (1 - p - q) q (initStateAt 0) n_max)

/-- One step of the dual-boundary DP (src/core.py lines 189-227), gather
form: entry `t` of `p_next` receives the good-shot mass from `s = t - 2`
exactly when `new_val = s + 2` is neither `>= par + 1` (exceptional) nor
`== par` (ordinary), the ordinary-shot mass from `s = t - 1` under the same
conditions on `new_val = s + 1`, and the bad-shot mass from `s = t` always
(transient states are `0, ..., par - 1`). -/
def stepStateD (par : ℕ) (pg po pb : ℚ) (v : ℕ → ℚ) : ℕ → ℚ := fun t =>
  (if 2 ≤ t ∧ ¬(par + 1 ≤ t) ∧ t ≠ par then v (t - 2) * pg else 0)
  + (if 1 ≤ t ∧ ¬(par + 1 ≤ t) ∧ t ≠ par then v (t - 1) * po else 0)
  + (if t < par then v t * pb else 0)

/-- Mass added to `pmf[shot]` in one step of the dual-boundary DP
(src/core.py lines 196-221): for each transient `s`, the good-shot mass
counts when `s + 2 >= par + 1` and the target is the exceptional boundary,
or `s + 2 == par` and the target is the ordinary boundary; likewise for the
ordinary shot with `s + 1`; mass reaching the non-target boundary is
dropped. -/
def stepAbsorbedD (par jn : ℕ) (pg po : ℚ) (v : ℕ → ℚ) : ℚ :=
  ∑ s ∈ Finset.range par,
    ((if par + 1 ≤ s + 2 then (if jn = par + 1 then v s * pg else 0)
      else if s + 2 = par then (if jn = par then v s * pg else 0) else 0)
     + (if par + 1 ≤ s + 1 then (if jn = par + 1 then v s * po else 0)
      else if s + 1 = par then (if jn = par then v s * po else 0) else 0))

/-- State vector after `n` steps of the dual-boundary DP. -/
def iterStateD (par : ℕ) (pg po pb : ℚ) (v : ℕ → ℚ) : ℕ → (ℕ → ℚ)
  | 0 => v
  | n + 1 => stepStateD par pg po pb (iterStateD par pg po pb v n)

/-- Entries `pmf[1], ..., pmf[n_max]` of `hardy_finish_pmf_ij` in the
transient branch: entry for step `shot` is the absorption at the target
out of the state vector after `shot - 1` steps. -/
def dualPmfList (par jn : ℕ) (pg po pb : ℚ) (v : ℕ → ℚ) (n_max : ℕ) : List ℚ :=
  (List.range n_max).map fun k => stepAbsorbedD par jn pg po (iterStateD par pg po pb v k)

/-- Embedding of `n_array = np.arange(0, n_max + 1)`. -/
def nArrayList (n_max : ℕ) : List ℤ :=
  (List.range (n_max + 1)).map fun k => (k : ℤ)

/-- Embedding of `hardy_finish_pmf_ij` (src/core.py lines 104-229):
validation of probabilities, `par_m`, `i`, `j`; then the `i == j` and
`i == other_abs` shortcuts; then the DP from mass 1 at transient state `i`
(with the defensive unreachable else branch of lines 184-186 returning the
zero pmf). -/
def hardy_finish_pmf_ij (par_m i j : ℤ) (p q : ℚ) (n_max : ℕ) :
    Except PyErr (List ℤ × List ℚ) :=
  if p < 0 ∨ q < 0 ∨ p + q ≥ 1 then .error .invalidParameter
  else if par_m < 1 then .error .invalidParameter
  else if ¬(0 ≤ i ∧ i ≤ par_m + 1) then .error .invalidParameter
  else if ¬(j = par_m ∨ j = par_m + 1) then .error .invalidParameter
  else
    if i = j then .ok (nArrayList n_max, 1 :: List.replicate n_max 0)
    else if i = (if j = par_m + 1 then par_m else par_m + 1) then
      .ok (nArrayList n_max, List.replicate (n_max + 1) 0)
    else if 0 ≤ i ∧ i ≤ par_m - 1 then
      .ok (nArrayList n_max,
        0 :: dualPmfList par_m.toNat j.toNat p (1 - p - q) q (initStateAt i.toNat) n_max)
    else .ok (nArrayList n_max, List.replicate (n_max + 1) 0)

/-- Total mass of the transient-state vector. -/
def stateMass (par : ℕ) (v : ℕ → ℚ) : ℚ :=
  ∑ s ∈ Finset.range par, v s

/-! ### Generic helpers about sums over ranges -/

theorem list_range_map_sum (f : ℕ → ℚ) (n : ℕ) :
    ((List.range n).map f).sum = ∑ k ∈ Finset.range n, f k := by
  induction n with
  | zero => simp
  | succ n ih =>
      rw [List.range_succ, List.map_append, List.sum_append, Finset.sum_range_succ, ih]
      simp

theorem range_map_take (f : ℕ → ℚ) (m n : ℕ) (h : n ≤ m) :
    ((List.range m).map f).take n = (List.range n).map f := by
  rw [← List.map_take, List.take_range, Nat.min_eq_left h]

theorem range_map_getD (f : ℕ → ℚ) (m k : ℕ) (h : k < m) :
    ((List.range m).map f).getD k 0 = f k := by
  rw [List.getD_eq_getElem?_getD, List.getElem?_map, List.getElem?_range h]
  rfl

theorem sum_range_if_le_shift (f : ℕ → ℚ) (k n : ℕ) :
    ∑ t ∈ Finset.range n, (if k ≤ t then f (t - k) else 0)
      = ∑ u ∈ Finset.range (n - k), f u := by
  induction n with
  | zero => simp
  | succ n ih =>
      rw [Finset.sum_range_succ, ih]
      by_cases h : k ≤ n
      · rw [if_pos h]
        have h2 : n + 1 - k = (n - k) + 1 := by omega
        rw [h2, Finset.sum_range_succ]
      · rw [if_neg h]
        have h2 : n + 1 - k = 0 := by omega
        have h3 : n - k = 0 := by omega
        rw [h2, h3, add_zero]

theorem sum_range_if_lt (f : ℕ → ℚ) (m n : ℕ) (h : m ≤ n) :
    ∑ s ∈ Finset.range n, (if s < m then f s else 0) = ∑ s ∈ Finset.range m, f s := by
  have h2 : (Finset.range n).filter (fun s => s < m) = Finset.range m := by
    ext s
    simp only [Finset.mem_filter, Finset.mem_range]
    omega
  rw [← Finset.sum_filter, h2]

theorem take_sum_mono (l : List ℚ) (hl : ∀ x ∈ l, 0 ≤ x) (a b : ℕ) (hab : a ≤ b) :
    (l.take a).sum ≤ (l.take b).sum := by
  have hb : b = a + (b - a) := by omega
  rw [hb, List.take_add, List.sum_append]
  have h0 : 0 ≤ ((l.drop a).take (b - a)).sum := by
    apply List.sum_nonneg
    intro x hx
    exact hl x (List.drop_subset _ _ (List.take_subset _ _ hx))
  linarith

/-! ### Mass bookkeeping for the single-boundary DP -/

theorem stepState_sum (par : ℕ) (pg po pb : ℚ) (v : ℕ → ℚ) :
    ∑ t ∈ Finset.range par, stepState par pg po pb v t
      = (∑ u ∈ Finset.range (par - 2), v u * pg)
        + (∑ u ∈ Finset.range (par - 1), v u * po)
        + (∑ u ∈ Finset.range par, v u * pb) := by
  unfold stepState
  rw [Finset.sum_add_distrib, Finset.sum_add_distrib]
  have hg : ∑ t ∈ Finset.range par, (if 2 ≤ t ∧ t < par then v (t - 2) * pg else 0)
      = ∑ u ∈ Finset.range (par - 2), v u * pg := by
    rw [← sum_range_if_le_shift (fun u => v u * pg) 2 par]
    apply Finset.sum_congr rfl
    intro t ht
    simp only [Finset.mem_range] at ht
    exact if_congr (by omega) rfl rfl
  have ho : ∑ t ∈ Finset.range par, (if 1 ≤ t ∧ t < par then v (t - 1) * po else 0)
      = ∑ u ∈ Finset.range (par - 1), v u * po := by
    rw [← sum_range_if_le_shift (fun u => v u * po) 1 par]
    apply Finset.sum_congr rfl
    intro t ht
    simp only [Finset.mem_range] at ht
    exact if_congr (by omega) rfl rfl
  have hb : ∑ t ∈ Finset.range par, (if t < par then v t * pb else 0)
      = ∑ u ∈ Finset.range par, v u * pb := by
    apply Finset.sum_congr rfl
    intro t ht
    simp only [Finset.mem_range] at ht
    rw [if_pos ht]
  rw [hg, ho, hb]

theorem stepAbsorbed_eq (par : ℕ) (pg po : ℚ) (v : ℕ → ℚ) :
    stepAbsorbed par pg po v
      = ((∑ u ∈ Finset.range par, v u * pg) - ∑ u ∈ Finset.range (par - 2), v u * pg)
        + ((∑ u ∈ Finset.range par, v u * po) - ∑ u ∈ Finset.range (par - 1), v u * po) := by
  unfold stepAbsorbed
  rw [Finset.sum_add_distrib]
  congr 1
  · rw [← sum_range_if_lt (fun u => v u * pg) (par - 2) par (by omega),
      ← Finset.sum_sub_distrib]
    apply Finset.sum_congr rfl
    intro s hs
    simp only [Finset.mem_range] at hs
    by_cases h : par ≤ s + 2
    · rw [if_pos h, if_neg (by omega), sub_zero]
    · rw [if_neg h, if_pos (by omega), sub_self]
  · rw [← sum_range_if_lt (fun u => v u * po) (par - 1) par (by omega),
      ← Finset.sum_sub_distrib]
    apply Finset.sum_congr rfl
    intro s hs
    simp only [Finset.mem_range] at hs
    by_cases h : par ≤ s + 1
    · rw [if_pos h, if_neg (by omega), sub_zero]
    · rw [if_neg h, if_pos (by omega), sub_self]

theorem step_mass (par : ℕ) (pg po pb : ℚ) (h1 : pg + po + pb = 1) (v : ℕ → ℚ) :
    stepAbsorbed par pg po v + stateMass par (stepState par pg po pb v)
      = stateMass par v := by
  unfold stateMass
  rw [stepState_sum, stepAbsorbed_eq]
  have hsum : (∑ u ∈ Finset.range par, v u * pg) + (∑ u ∈ Finset.range par, v u * po)
      + (∑ u ∈ Finset.range par, v u * pb) = ∑ s ∈ Finset.range par, v s := by
    rw [← Finset.sum_add_distrib, ← Finset.sum_add_distrib]
    apply Finset.sum_congr rfl
    intro s _
    have h2 : v s * pg + v s * po + v s * pb = v s * (pg + po + pb) := by ring
    rw [h2, h1, mul_one]
  linarith

theorem stepState_nonneg (par : ℕ) (pg po pb : ℚ) (hpg : 0 ≤ pg) (hpo : 0 ≤ po)
    (hpb : 0 ≤ pb) (v : ℕ → ℚ) (hv : ∀ t, 0 ≤ v t) (t : ℕ) :
    0 ≤ stepState par pg po pb v t := by
  unfold stepState
  have h1 : (0:ℚ) ≤ (if 2 ≤ t ∧ t < par then v (t - 2) * pg else 0) := by
    split
    · exact mul_nonneg (hv _) hpg
    · exact le_refl 0
  have h2 : (0:ℚ) ≤ (if 1 ≤ t ∧ t < par then v (t - 1) * po else 0) := by
    split
    · exact mul_nonneg (hv _) hpo
    · exact le_refl 0
  have h3 : (0:ℚ) ≤ (if t < par then v t * pb else 0) := by
    split
    · exact mul_nonneg (hv _) hpb
    · exact le_refl 0
  linarith

theorem stepAbsorbed_nonneg (par : ℕ) (pg po : ℚ) (hpg : 0 ≤ pg) (hpo : 0 ≤ po)
    (v : ℕ → ℚ) (hv : ∀ t, 0 ≤ v t) : 0 ≤ stepAbsorbed par pg po v := by
  unfold stepAbsorbed
  apply Finset.sum_nonneg
  intro s _
  have h1 : (0:ℚ) ≤ (if par ≤ s + 2 then v s * pg else 0) := by
    split
    · exact mul_nonneg (hv _) hpg
    · exact le_refl 0
  have h2 : (0:ℚ) ≤ (if par ≤ s + 1 then v s * po else 0) := by
    split
    · exact mul_nonneg (hv _) hpo
    · exact le_refl 0
  linarith

theorem iterState_nonneg (par : ℕ) (pg po pb : ℚ) (hpg : 0 ≤ pg) (hpo : 0 ≤ po)
    (hpb : 0 ≤ pb) (v : ℕ → ℚ) (hv : ∀ t, 0 ≤ v t) :
    ∀ n t, 0 ≤ iterState par pg po pb v n t := by
  intro n
  induction n with
  | zero => exact hv
  | succ n ih => exact stepState_nonneg par pg po pb hpg hpo hpb _ ih

theorem stateMass_nonneg (par : ℕ) (v : ℕ → ℚ) (hv : ∀ t, 0 ≤ v t) :
    0 ≤ stateMass par v :=
  Finset.sum_nonneg fun s _ => hv s

theorem single_conservation (par : ℕ) (pg po pb : ℚ) (h1 : pg + po + pb = 1)
    (v : ℕ → ℚ) :
    ∀ n, stateMass par (iterState par pg po pb v n)
        + ∑ k ∈ Finset.range n, stepAbsorbed par pg po (iterState par pg po pb v k)
      = stateMass par v := by
  intro n
  induction n with
  | zero => simp [iterState]
  | succ n ih =>
      have hstep : iterState par pg po pb v (n + 1)
          = stepState par pg po pb (iterState par pg po pb v n) := rfl
      rw [Finset.sum_range_succ, hstep]
      have hs := step_mass par pg po pb h1 (iterState par pg po pb v n)
      linarith

theorem stateMass_initStateAt (par i : ℕ) (h : i < par) :
    stateMass par (initStateAt i) = 1 := by
  unfold stateMass initStateAt
  rw [Finset.sum_ite_eq' (Finset.range par) i (fun _ => (1:ℚ))]
  rw [if_pos (Finset.mem_range.mpr h)]

theorem initStateAt_nonneg (i t : ℕ) : 0 ≤ initStateAt i t := by
  unfold initStateAt
  split
  · exact zero_le_one
  · exact le_refl 0

/-- C1: for valid probabilities, par ≥ 1 and n_max ≥ 1,
`hardy_distribution_markov` succeeds with the step labels 1..n_max and a
pmf of exactly n_max entries, all nonnegative; the running sum of the pmf
is non-decreasing and bounded by 1; and after every step the transient
mass remaining in the state vector plus the pmf mass accumulated so far is
exactly 1 (exact arithmetic). -/
theorem hardy_distribution_markov_invariants (par_m : ℤ) (p q : ℚ) (n_max : ℕ)
    (hp : 0 ≤ p) (hq : 0 ≤ q) (hpq : p + q < 1) (hpar : 1 ≤ par_m) (_hn : 1 ≤ n_max) :
    ∃ pmf : List ℚ,
      hardy_distribution_markov par_m p q n_max = .ok (scoresList n_max, pmf)
      ∧ pmf.length = n_max
      ∧ (∀ x ∈ pmf, 0 ≤ x)
      ∧ (∀ a b, a ≤ b → (pmf.take a).sum ≤ (pmf.take b).sum)
      ∧ (∀ n, (pmf.take n).sum ≤ 1)
      ∧ (∀ n ≤ n_max,
          stateMass par_m.toNat
              (iterState par_m.toNat p (1 - p - q) q (initStateAt 0) n)
            + (pmf.take n).sum = 1) := by
  have hpo : 0 ≤ 1 - p - q := by linarith
  have hone : p + (1 - p - q) + q = 1 := by ring
  have hparpos : 0 < par_m.toNat := by omega
  refine ⟨singlePmfList par_m.toNat p (1 - p - q) q (initStateAt 0) n_max,
    ?_, ?_, ?_, ?_, ?_, ?_⟩
  · unfold hardy_distribution_markov
    rw [if_neg (by push_neg; exact ⟨hp, hq, hpq⟩), if_neg (by omega), if_neg (by omega)]
  · unfold singlePmfList
    rw [List.length_map, List.length_range]
  · intro x hx
    unfold singlePmfList at hx
    obtain ⟨k, _, rfl⟩ := List.mem_map.mp hx
    exact stepAbsorbed_nonneg _ _ _ hp hpo _
      (iterState_nonneg _ _ _ _ hp hpo hq _ (initStateAt_nonneg 0) k)
  · intro a b hab
    apply take_sum_mono _ _ _ _ hab
    intro x hx
    unfold singlePmfList at hx
    obtain ⟨k, _, rfl⟩ := List.mem_map.mp hx
    exact stepAbsorbed_nonneg _ _ _ hp hpo _
      (iterState_nonneg _ _ _ _ hp hpo hq _ (initStateAt_nonneg 0) k)
  · have hnonneg : ∀ x ∈ singlePmfList par_m.toNat p (1 - p - q) q (initStateAt 0) n_max,
        (0:ℚ) ≤ x := by
      intro x hx
      unfold singlePmfList at hx
      obtain ⟨k, _, rfl⟩ := List.mem_map.mp hx
      exact stepAbsorbed_nonneg _ _ _ hp hpo _
        (iterState_nonneg _ _ _ _ hp hpo hq _ (initStateAt_nonneg 0) k)
    have hfull : ((singlePmfList par_m.toNat p (1 - p - q) q (initStateAt 0) n_max).take
        n_max).sum ≤ 1 := by
      unfold singlePmfList
      rw [range_map_take _ _ _ (le_refl n_max), list_range_map_sum]
      have hcons := single_conservation par_m.toNat p (1 - p - q) q hone (initStateAt 0) n_max
      have hmass0 : stateMass par_m.toNat (initStateAt 0) = 1 :=
        stateMass_initStateAt _ _ hparpos
      have hmassn : 0 ≤ stateMass par_m.toNat
          (iterState par_m.toNat p (1 - p - q) q (initStateAt 0) n_max) :=
        stateMass_nonneg _ _ (iterState_nonneg _ _ _ _ hp hpo hq _ (initStateAt_nonneg 0) n_max)
      linarith
    intro n
    by_cases hcase : n ≤ n_max
    · exact le_trans (take_sum_mono _ hnonneg n n_max hcase) hfull
    · have hlen : (singlePmfList par_m.toNat p (1 - p - q) q (initStateAt 0) n_max).length
          = n_max := by
        unfold singlePmfList
        rw [List.length_map, List.length_range]
      rw [List.take_of_length_le (by omega)]
      rw [List.take_of_length_le (le_of_eq hlen)] at hfull
      exact hfull
  · intro n hn2
    have htake : ((singlePmfList par_m.toNat p (1 - p - q) q (initStateAt 0) n_max).take
        n).sum = ∑ k ∈ Finset.range n,
          stepAbsorbed par_m.toNat p (1 - p - q)
            (iterState par_m.toNat p (1 - p - q) q (initStateAt 0) k) := by
      unfold singlePmfList
      rw [range_map_take _ _ _ hn2, list_range_map_sum]
    rw [htake]
    have hcons := single_conservation par_m.toNat p (1 - p - q) q hone (initStateAt 0) n
    have hmass0 : stateMass par_m.toNat (initStateAt 0) = 1 :=
      stateMass_initStateAt _ _ hparpos
    linarith

/-- Witness for C1 at par = 4, p = 2/5, q = 1/10, n_max = 6. -/
theorem hardy_distribution_markov_invariants_witness :
    ∃ pmf : List ℚ,
      hardy_distribution_markov 4 (2/5) (1/10) 6 = .ok (scoresList 6, pmf)
      ∧ pmf.length = 6
      ∧ (∀ x ∈ pmf, 0 ≤ x)
      ∧ (∀ a b, a ≤ b → (pmf.take a).sum ≤ (pmf.take b).sum)
      ∧ (∀ n, (pmf.take n).sum ≤ 1)
      ∧ (∀ n ≤ 6,
          stateMass (4:ℤ).toNat
              (iterState (4:ℤ).toNat (2/5) (1 - 2/5 - 1/10) (1/10) (initStateAt 0) n)
            + (pmf.take n).sum = 1) :=
  hardy_distribution_markov_invariants 4 (2/5) (1/10) 6 (by norm_num) (by norm_num)
    (by norm_num) (by norm_num) (by norm_num)

/-! ### Mass bookkeeping for the dual-boundary DP -/

theorem stepStateD_eq_stepState (par : ℕ) (pg po pb : ℚ) (v : ℕ → ℚ) :
    stepStateD par pg po pb v = stepState par pg po pb v := by
  funext t
  unfold stepStateD stepState
  have h1 : (2 ≤ t ∧ ¬(par + 1 ≤ t) ∧ t ≠ par) ↔ (2 ≤ t ∧ t < par) := by omega
  have h2 : (1 ≤ t ∧ ¬(par + 1 ≤ t) ∧ t ≠ par) ↔ (1 ≤ t ∧ t < par) := by omega
  rw [if_congr h1 rfl rfl, if_congr h2 rfl rfl]

theorem iterStateD_eq_iterState (par : ℕ) (pg po pb : ℚ) (v : ℕ → ℚ) :
    ∀ n, iterStateD par pg po pb v n = iterState par pg po pb v n := by
  intro n
  induction n with
  | zero => rfl
  | succ n ih =>
      show stepStateD par pg po pb (iterStateD par pg po pb v n)
          = stepState par pg po pb (iterState par pg po pb v n)
      rw [ih, stepStateD_eq_stepState]

theorem stepAbsorbedD_nonneg (par jn : ℕ) (pg po : ℚ) (hpg : 0 ≤ pg) (hpo : 0 ≤ po)
    (v : ℕ → ℚ) (hv : ∀ t, 0 ≤ v t) : 0 ≤ stepAbsorbedD par jn pg po v := by
  unfold stepAbsorbedD
  apply Finset.sum_nonneg
  intro s _
  have hg : 0 ≤ v s * pg := mul_nonneg (hv s) hpg
  have ho : 0 ≤ v s * po := mul_nonneg (hv s) hpo
  split_ifs <;> linarith

theorem stepAbsorbedD_le_stepAbsorbed (par jn : ℕ) (pg po : ℚ) (hpg : 0 ≤ pg)
    (hpo : 0 ≤ po) (v : ℕ → ℚ) (hv : ∀ t, 0 ≤ v t) :
    stepAbsorbedD par jn pg po v ≤ stepAbsorbed par pg po v := by
  unfold stepAbsorbedD stepAbsorbed
  apply Finset.sum_le_sum
  intro s _
  have hg : 0 ≤ v s * pg := mul_nonneg (hv s) hpg
  have ho : 0 ≤ v s * po := mul_nonneg (hv s) hpo
  split_ifs <;> linarith

theorem dual_mass_le (par jn : ℕ) (pg po pb : ℚ) (h1 : pg + po + pb = 1)
    (hpg : 0 ≤ pg) (hpo : 0 ≤ po) (hpb : 0 ≤ pb) (v : ℕ → ℚ) (hv : ∀ t, 0 ≤ v t) :
    ∀ n, stateMass par (iterStateD par pg po pb v n)
        + ∑ k ∈ Finset.range n, stepAbsorbedD par jn pg po (iterStateD par pg po pb v k)
      ≤ stateMass par v := by
  intro n
  induction n with
  | zero => simp [iterStateD]
  | succ n ih =>
      have hIter : ∀ t, 0 ≤ iterStateD par pg po pb v n t := by
        intro t
        rw [iterStateD_eq_iterState]
        exact iterState_nonneg par pg po pb hpg hpo hpb v hv n t
      have hstep : iterStateD par pg po pb v (n + 1)
          = stepStateD par pg po pb (iterStateD par pg po pb v n) := rfl
      rw [Finset.sum_range_succ, hstep, stepStateD_eq_stepState]
      have hmass := step_mass par pg po pb h1 (iterStateD par pg po pb v n)
      have hle := stepAbsorbedD_le_stepAbsorbed par jn pg po hpg hpo _ hIter
      linarith

theorem iterStateD_nonneg (par : ℕ) (pg po pb : ℚ) (hpg : 0 ≤ pg) (hpo : 0 ≤ po)
    (hpb : 0 ≤ pb) (v : ℕ → ℚ) (hv : ∀ t, 0 ≤ v t) (n t : ℕ) :
    0 ≤ iterStateD par pg po pb v n t := by
  rw [iterStateD_eq_iterState]
  exact iterState_nonneg par pg po pb hpg hpo hpb v hv n t

/-- C2: for every valid input, `hardy_finish_pmf_ij` succeeds with the step
labels 0..n_max and a pmf of n_max + 1 entries, all nonnegative, whose
total sum is at most 1 for every horizon (mass absorbed at the non-target
boundary is dropped, never renormalized). -/
theorem hardy_finish_pmf_ij_substochastic (par_m i j : ℤ) (p q : ℚ) (n_max : ℕ)
    (hp : 0 ≤ p) (hq : 0 ≤ q) (hpq : p + q < 1) (hpar : 1 ≤ par_m)
    (hi : 0 ≤ i ∧ i ≤ par_m + 1) (hj : j = par_m ∨ j = par_m + 1) :
    ∃ pmf : List ℚ,
      hardy_finish_pmf_ij par_m i j p q n_max = .ok (nArrayList n_max, pmf)
      ∧ pmf.length = n_max + 1
      ∧ (∀ x ∈ pmf, 0 ≤ x)
      ∧ pmf.sum ≤ 1 := by
  have hpo : 0 ≤ 1 - p - q := by linarith
  have hone : p + (1 - p - q) + q = 1 := by ring
  unfold hardy_finish_pmf_ij
  rw [if_neg (by push_neg; exact ⟨hp, hq, hpq⟩), if_neg (by omega),
    if_neg (by omega), if_neg (by omega)]
  split_ifs
  all_goals first
    | (refine ⟨1 :: List.replicate n_max 0, rfl, by simp, ?_, by simp⟩
       intro x hx
       rcases List.mem_cons.mp hx with h | h
       · rw [h]; exact zero_le_one
       · rw [List.eq_of_mem_replicate h])
    | (refine ⟨List.replicate (n_max + 1) 0, rfl, by simp, ?_, by simp⟩
       intro x hx
       rw [List.eq_of_mem_replicate hx])
    | (have hvi : ∀ t, 0 ≤ initStateAt i.toNat t := initStateAt_nonneg i.toNat
       refine ⟨0 :: dualPmfList par_m.toNat j.toNat p (1 - p - q) q (initStateAt i.toNat) n_max,
         rfl, by simp [dualPmfList], ?_, ?_⟩
       · intro x hx
         rcases List.mem_cons.mp hx with h | h
         · rw [h]
         · unfold dualPmfList at h
           obtain ⟨k, _, rfl⟩ := List.mem_map.mp h
           exact stepAbsorbedD_nonneg _ _ _ _ hp hpo _
             (fun t => iterStateD_nonneg _ _ _ _ hp hpo hq _ hvi k t)
       · rw [List.sum_cons]
         unfold dualPmfList
         rw [list_range_map_sum]
         have hmass0 : stateMass par_m.toNat (initStateAt i.toNat) = 1 :=
           stateMass_initStateAt _ _ (by omega)
         have hle := dual_mass_le par_m.toNat j.toNat p (1 - p - q) q hone hp hpo hq
           (initStateAt i.toNat) hvi n_max
         have hmassn : 0 ≤ stateMass par_m.toNat
             (iterStateD par_m.toNat p (1 - p - q) q (initStateAt i.toNat) n_max) :=
           stateMass_nonneg _ _
             (fun t => iterStateD_nonneg _ _ _ _ hp hpo hq _ hvi n_max t)
         linarith)

/-- Witness for C2 at par = 4, i = 0, j = 4, p = 2/5, q = 1/10, n_max = 6. -/
theorem hardy_finish_pmf_ij_substochastic_witness :
    ∃ pmf : List ℚ,
      hardy_finish_pmf_ij 4 0 4 (2/5) (1/10) 6 = .ok (nArrayList 6, pmf)
      ∧ pmf.length = 6 + 1
      ∧ (∀ x ∈ pmf, 0 ≤ x)
      ∧ pmf.sum ≤ 1 :=
  hardy_finish_pmf_ij_substochastic 4 0 4 (2/5) (1/10) 6 (by norm_num) (by norm_num)
    (by norm_num) (by norm_num) (by norm_num) (by norm_num)

/-- Absorption in the single-boundary DP splits exactly into ordinary-target
and exceptional-target absorption of the dual-boundary DP. -/
theorem stepAbsorbedD_split (par : ℕ) (pg po : ℚ) (v : ℕ → ℚ) :
    stepAbsorbedD par par pg po v + stepAbsorbedD par (par + 1) pg po v
      = stepAbsorbed par pg po v := by
  unfold stepAbsorbedD stepAbsorbed
  rw [← Finset.sum_add_distrib]
  apply Finset.sum_congr rfl
  intro s hs
  simp only [Finset.mem_range] at hs
  split_ifs <;> first | (exfalso; omega) | ring1

/-- C3: the single-boundary solver is the specialization of the
dual-boundary solver with the two absorbing boundaries merged: for
1 ≤ n ≤ n_max, the single-boundary pmf entry for step n (index n - 1)
equals the sum of the two dual-boundary pmf entries at index n for targets
par and par + 1. -/
theorem hardy_distribution_markov_eq_dual_sum (par_m : ℤ) (p q : ℚ) (n_max n : ℕ)
    (hp : 0 ≤ p) (hq : 0 ≤ q) (hpq : p + q < 1) (hpar : 1 ≤ par_m)
    (hn1 : 1 ≤ n) (hn2 : n ≤ n_max) :
    ∃ f0 f1 f2 : List ℚ,
      hardy_distribution_markov par_m p q n_max = .ok (scoresList n_max, f0)
      ∧ hardy_finish_pmf_ij par_m 0 par_m p q n_max = .ok (nArrayList n_max, f1)
      ∧ hardy_finish_pmf_ij par_m 0 (par_m + 1) p q n_max = .ok (nArrayList n_max, f2)
      ∧ f0.getD (n - 1) 0 = f1.getD n 0 + f2.getD n 0 := by
  have hprobs : ¬(p < 0 ∨ q < 0 ∨ p + q ≥ 1) := by push_neg; exact ⟨hp, hq, hpq⟩
  refine ⟨singlePmfList par_m.toNat p (1 - p - q) q (initStateAt 0) n_max,
    0 :: dualPmfList par_m.toNat par_m.toNat p (1 - p - q) q (initStateAt 0) n_max,
    0 :: dualPmfList par_m.toNat ((par_m + 1).toNat) p (1 - p - q) q (initStateAt 0) n_max,
    ?_, ?_, ?_, ?_⟩
  · unfold hardy_distribution_markov
    rw [if_neg hprobs, if_neg (by omega), if_neg (by omega)]
  · unfold hardy_finish_pmf_ij
    rw [if_neg hprobs, if_neg (by omega), if_neg (by omega), if_neg (by omega)]
    rw [if_neg (show ¬(0:ℤ) = par_m by omega)]
    rw [if_neg (show ¬par_m = par_m + 1 by omega)]
    rw [if_neg (show ¬(0:ℤ) = par_m + 1 by omega)]
    rw [if_pos (by omega : (0:ℤ) ≤ 0 ∧ 0 ≤ par_m - 1)]
    rfl
  · unfold hardy_finish_pmf_ij
    rw [if_neg hprobs, if_neg (by omega), if_neg (by omega), if_neg (by omega)]
    rw [if_neg (show ¬(0:ℤ) = par_m + 1 by omega)]
    rw [if_pos (show par_m + 1 = par_m + 1 from rfl)]
    rw [if_neg (show ¬(0:ℤ) = par_m by omega)]
    rw [if_pos (by omega : (0:ℤ) ≤ 0 ∧ 0 ≤ par_m - 1)]
    rfl
  · obtain ⟨m, rfl⟩ : ∃ m, n = m + 1 := ⟨n - 1, by omega⟩
    have hm : m + 1 - 1 = m := by omega
    rw [hm, List.getD_cons_succ, List.getD_cons_succ]
    unfold singlePmfList dualPmfList
    rw [range_map_getD _ _ _ (by omega), range_map_getD _ _ _ (by omega),
      range_map_getD _ _ _ (by omega)]
    rw [iterStateD_eq_iterState]
    have hj2 : (par_m + 1).toNat = par_m.toNat + 1 := by omega
    rw [hj2]
    exact (stepAbsorbedD_split par_m.toNat p (1 - p - q)
      (iterState par_m.toNat p (1 - p - q) q (initStateAt 0) m)).symm

/-- Witness for C3 at par = 4, p = 2/5, q = 1/10, n_max = 6, n = 3. -/
theorem hardy_distribution_markov_eq_dual_sum_witness :
    ∃ f0 f1 f2 : List ℚ,
      hardy_distribution_markov 4 (2/5) (1/10) 6 = .ok (scoresList 6, f0)
      ∧ hardy_finish_pmf_ij 4 0 4 (2/5) (1/10) 6 = .ok (nArrayList 6, f1)
      ∧ hardy_finish_pmf_ij 4 0 (4 + 1) (2/5) (1/10) 6 = .ok (nArrayList 6, f2)
      ∧ f0.getD (3 - 1) 0 = f1.getD 3 0 + f2.getD 3 0 :=
  hardy_distribution_markov_eq_dual_sum 4 (2/5) (1/10) 6 3 (by norm_num) (by norm_num)
    (by norm_num) (by norm_num) (by norm_num) (by norm_num)

/-- C7: for i = j (necessarily one of the two absorbing boundaries), the
result is pmf[0] = 1 and all later entries 0, produced by the shortcut
before any DP recursion. -/
theorem hardy_finish_pmf_ij_start_eq_target (par_m j : ℤ) (p q : ℚ) (n_max : ℕ)
    (hp : 0 ≤ p) (hq : 0 ≤ q) (hpq : p + q < 1) (hpar : 1 ≤ par_m)
    (hj : j = par_m ∨ j = par_m + 1) :
    hardy_finish_pmf_ij par_m j j p q n_max
      = .ok (nArrayList n_max, 1 :: List.replicate n_max 0) := by
  unfold hardy_finish_pmf_ij
  rw [if_neg (by push_neg; exact ⟨hp, hq, hpq⟩), if_neg (by omega),
    if_neg (by omega), if_neg (by omega)]
  rw [if_pos rfl]

/-- Witness for C7 at par = 3, j = 3, p = 1/3, q = 1/5, n_max = 2. -/
theorem hardy_finish_pmf_ij_start_eq_target_witness :
    hardy_finish_pmf_ij 3 3 3 (1/3) (1/5) 2
      = .ok (nArrayList 2, 1 :: List.replicate 2 0) :=
  hardy_finish_pmf_ij_start_eq_target 3 3 (1/3) (1/5) 2 (by norm_num) (by norm_num)
    (by norm_num) (by norm_num) (Or.inl rfl)

/-- C8: starting at the absorbing boundary that is not the target, the
returned pmf is identically zero (length n_max + 1). -/
theorem hardy_finish_pmf_ij_start_at_other_boundary (par_m i j : ℤ) (p q : ℚ)
    (n_max : ℕ) (hp : 0 ≤ p) (hq : 0 ≤ q) (hpq : p + q < 1) (hpar : 1 ≤ par_m)
    (hij : (j = par_m ∧ i = par_m + 1) ∨ (j = par_m + 1 ∧ i = par_m)) :
    hardy_finish_pmf_ij par_m i j p q n_max
      = .ok (nArrayList n_max, List.replicate (n_max + 1) 0) := by
  unfold hardy_finish_pmf_ij
  rw [if_neg (by push_neg; exact ⟨hp, hq, hpq⟩), if_neg (by omega),
    if_neg (by omega), if_neg (by omega)]
  rw [if_neg (show ¬i = j by omega)]
  have hother : i = (if j = par_m + 1 then par_m else par_m + 1) := by
    rcases hij with ⟨h1, h2⟩ | ⟨h1, h2⟩
    · rw [if_neg (by omega)]; omega
    · rw [if_pos h1]; omega
  rw [if_pos hother]

/-- Witness for C8 at par = 3, i = 4, j = 3, p = 1/3, q = 1/5, n_max = 2. -/
theorem hardy_finish_pmf_ij_start_at_other_boundary_witness :
    hardy_finish_pmf_ij 3 4 3 (1/3) (1/5) 2
      = .ok (nArrayList 2, List.replicate (2 + 1) 0) :=
  hardy_finish_pmf_ij_start_at_other_boundary 3 4 3 (1/3) (1/5) 2 (by norm_num)
    (by norm_num) (by norm_num) (by norm_num) (Or.inl ⟨rfl, rfl⟩)

/-- C10: `simulate_hole_hardy` does not validate par; for par ≤ 0 and valid
probabilities it returns 0 immediately, for every stream (the result does
not depend on the stream, so no sample is drawn), instead of raising. -/
theorem simulate_hole_hardy_nonpos_par (par_m : ℤ) (p q : ℚ) (max_shots : ℕ)
    (hpar : par_m ≤ 0) (hp : 0 ≤ p) (hq : 0 ≤ q) (hpq : p + q < 1) :
    ∀ stream : ℕ → Fin 3, simulate_hole_hardy par_m p q stream max_shots = .ok 0 := by
  intro stream
  unfold simulate_hole_hardy
  rw [if_neg (by push_neg; exact ⟨hp, hq, hpq⟩)]
  unfold simLoop
  rw [if_neg (by omega : ¬((0:ℤ) < par_m))]

/-- Witness for C10 at par = 0, p = 1/2, q = 1/4, max_shots = 19. -/
theorem simulate_hole_hardy_nonpos_par_witness :
    simulate_hole_hardy 0 (1/2) (1/4) (fun _ => 0) 19 = .ok 0 :=
  simulate_hole_hardy_nonpos_par 0 (1/2) (1/4) 19 (by norm_num) (by norm_num)
    (by norm_num) (by norm_num) (fun _ => 0)

/-- C5 counterexample: with valid probabilities and par = 0,
`hardy_distribution_markov` does not raise the InvalidParameter ValueError
of its input check; it fails only later, with the IndexError from
`p_state[0] = 1.0` on the empty state vector. -/
theorem hardy_distribution_markov_par0_not_invalidParameter :
    hardy_distribution_markov 0 0 0 19 = .error PyErr.indexError
      ∧ hardy_distribution_markov 0 0 0 19 ≠ .error PyErr.invalidParameter := by
  have h : hardy_distribution_markov 0 0 0 19 = .error PyErr.indexError := by
    unfold hardy_distribution_markov
    rw [if_neg (by norm_num), if_neg (by norm_num), if_pos rfl]
  refine ⟨h, ?_⟩
  rw [h]
  simp

/-- C5 amended: `hardy_finish_pmf_ij` raises InvalidParameter exactly for
the listed conditions, but `hardy_distribution_markov` raises it exactly
for invalid probabilities — it does not validate par: with valid
probabilities and par < 0 it fails with numpy's negative-dimensions error,
and with par = 0 with an IndexError, both while building the state
vector. -/
theorem validation_invalidParameter_iff (par_m i j : ℤ) (p q : ℚ) (n_max : ℕ) :
    (hardy_finish_pmf_ij par_m i j p q n_max = .error PyErr.invalidParameter
        ↔ ((p < 0 ∨ q < 0 ∨ p + q ≥ 1) ∨ par_m < 1 ∨ ¬(0 ≤ i ∧ i ≤ par_m + 1)
            ∨ ¬(j = par_m ∨ j = par_m + 1)))
    ∧ (hardy_distribution_markov par_m p q n_max = .error PyErr.invalidParameter
        ↔ (p < 0 ∨ q < 0 ∨ p + q ≥ 1))
    ∧ (¬(p < 0 ∨ q < 0 ∨ p + q ≥ 1) → par_m < 0 →
        hardy_distribution_markov par_m p q n_max = .error PyErr.negativeDimensions)
    ∧ (¬(p < 0 ∨ q < 0 ∨ p + q ≥ 1) → par_m = 0 →
        hardy_distribution_markov par_m p q n_max = .error PyErr.indexError) := by
  refine ⟨?_, ?_, ?_, ?_⟩
  · constructor
    · intro h
      by_cases h1 : p < 0 ∨ q < 0 ∨ p + q ≥ 1
      · exact Or.inl h1
      by_cases h2 : par_m < 1
      · exact Or.inr (Or.inl h2)
      by_cases h3 : ¬(0 ≤ i ∧ i ≤ par_m + 1)
      · exact Or.inr (Or.inr (Or.inl h3))
      by_cases h4 : ¬(j = par_m ∨ j = par_m + 1)
      · exact Or.inr (Or.inr (Or.inr h4))
      exfalso
      unfold hardy_finish_pmf_ij at h
      rw [if_neg h1, if_neg h2, if_neg h3, if_neg h4] at h
      split_ifs at h
    · intro h
      unfold hardy_finish_pmf_ij
      by_cases h1 : p < 0 ∨ q < 0 ∨ p + q ≥ 1
      · rw [if_pos h1]
      rw [if_neg h1]
      by_cases h2 : par_m < 1
      · rw [if_pos h2]
      rw [if_neg h2]
      by_cases h3 : ¬(0 ≤ i ∧ i ≤ par_m + 1)
      · rw [if_pos h3]
      rw [if_neg h3]
      by_cases h4 : ¬(j = par_m ∨ j = par_m + 1)
      · rw [if_pos h4]
      exfalso
      rcases h with h | h | h | h
      · exact h1 h
      · exact h2 h
      · exact h3 h
      · exact h4 h
  · constructor
    · intro h
      by_contra h1
      unfold hardy_distribution_markov at h
      rw [if_neg h1] at h
      split_ifs at h <;> simp at h
    · intro h1
      unfold hardy_distribution_markov
      rw [if_pos h1]
  · intro h1 h2
    unfold hardy_distribution_markov
    rw [if_neg h1, if_pos h2]
  · intro h1 h2
    unfold hardy_distribution_markov
    rw [if_neg h1, if_neg (by omega), if_pos h2]

/-- Geometric-state closed form for the par = 1 dual DP: after k steps all
remaining transient mass sits at state 0 and equals pb ^ k. -/
theorem iterStateD_par1 (pg po pb : ℚ) :
    ∀ k, iterStateD 1 pg po pb (initStateAt 0) k
      = fun t => if t = 0 then pb ^ k else 0 := by
  intro k
  induction k with
  | zero =>
      funext t
      simp [iterStateD, initStateAt]
  | succ k ih =>
      funext t
      show stepStateD 1 pg po pb (iterStateD 1 pg po pb (initStateAt 0) k) t = _
      rw [ih]
      unfold stepStateD
      by_cases ht : t = 0
      · subst ht
        rw [if_neg (by omega), if_neg (by omega), if_pos (by omega)]
        simp [pow_succ]
      · rw [if_neg (by omega), if_neg (by omega), if_neg (by omega), if_neg ht]
        simp

/-- Absorption at the ordinary target for par = 1: only the ordinary shot
from state 0 counts; the good shot overshoots to the exceptional boundary
and is dropped. -/
theorem stepAbsorbedD_par1_ord (pg po : ℚ) (v : ℕ → ℚ) :
    stepAbsorbedD 1 1 pg po v = v 0 * po := by
  unfold stepAbsorbedD
  rw [Finset.sum_range_one]
  norm_num

theorem one_sub_mul_geom (q : ℚ) : ∀ N, (1 - q) * ∑ k ∈ Finset.range N, q ^ k
    = 1 - q ^ N := by
  intro N
  induction N with
  | zero => simp
  | succ N ih =>
      rw [Finset.sum_range_succ, mul_add, ih, pow_succ]
      ring

/-- C4 counterexample: at par = 1, i = 0, j = 1, p = 1/2, q = 1/4, n_max = 1
the pmf entry for step 1 is 1 - p - q = 1/4, not p + (1 - p - q) = 3/4:
the good-shot mass lands on the exceptional boundary 2 and is dropped
because the target j = 1 is the ordinary boundary. -/
theorem hardy_finish_pmf_ij_par1_claim_false :
    hardy_finish_pmf_ij 1 0 1 (1/2) (1/4) 1 = .ok ([0, 1], [0, 1/4])
      ∧ ((1:ℚ)/4 ≠ 1/2 + (1 - 1/2 - 1/4)) := by
  constructor
  · unfold hardy_finish_pmf_ij
    rw [if_neg (by norm_num), if_neg (by norm_num), if_neg (by norm_num),
      if_neg (by norm_num)]
    rw [if_neg (by norm_num : ¬(0:ℤ) = 1)]
    rw [if_neg (show ¬(1:ℤ) = 1 + 1 by norm_num)]
    rw [if_neg (by norm_num : ¬(0:ℤ) = 1 + 1)]
    rw [if_pos (by norm_num : (0:ℤ) ≤ 0 ∧ (0:ℤ) ≤ 1 - 1)]
    rw [show ((0:ℤ).toNat) = 0 from rfl, show ((1:ℤ).toNat) = 1 from rfl]
    unfold nArrayList dualPmfList
    simp [List.range_succ, iterStateD, stepAbsorbedD_par1_ord, initStateAt]
    norm_num
  · norm_num

/-- C4 amended: for par = 1, i = 0, j = 1 and valid p, q, the pmf entry for
step n is (1 - p - q) * q ^ (n - 1) (the good-shot mass p is absorbed at
the exceptional boundary and dropped), and the total pmf mass satisfies
(1 - q) * sum = (1 - p - q) * (1 - q ^ n_max), so the cumulative sum tends
to (1 - p - q) / (1 - q) as n_max grows, not to 1 unless p = 0. -/
theorem hardy_finish_pmf_ij_par1_geometric (p q : ℚ) (n_max n : ℕ)
    (hp : 0 ≤ p) (hq : 0 ≤ q) (hpq : p + q < 1) (hn1 : 1 ≤ n) (hn2 : n ≤ n_max) :
    ∃ f : List ℚ,
      hardy_finish_pmf_ij 1 0 1 p q n_max = .ok (nArrayList n_max, f)
      ∧ f.getD n 0 = (1 - p - q) * q ^ (n - 1)
      ∧ (1 - q) * f.sum = (1 - p - q) * (1 - q ^ n_max) := by
  have hprobs : ¬(p < 0 ∨ q < 0 ∨ p + q ≥ 1) := by push_neg; exact ⟨hp, hq, hpq⟩
  refine ⟨0 :: dualPmfList 1 1 p (1 - p - q) q (initStateAt 0) n_max, ?_, ?_, ?_⟩
  · unfold hardy_finish_pmf_ij
    rw [if_neg hprobs, if_neg (by omega), if_neg (by omega), if_neg (by omega)]
    rw [if_neg (by omega : ¬(0:ℤ) = 1)]
    rw [if_neg (show ¬(1:ℤ) = 1 + 1 by omega)]
    rw [if_neg (by omega : ¬(0:ℤ) = 1 + 1)]
    rw [if_pos (by omega : (0:ℤ) ≤ 0 ∧ (0:ℤ) ≤ 1 - 1)]
    rfl
  · obtain ⟨m, rfl⟩ : ∃ m, n = m + 1 := ⟨n - 1, by omega⟩
    rw [List.getD_cons_succ]
    unfold dualPmfList
    rw [range_map_getD _ _ _ (by omega)]
    rw [iterStateD_par1, stepAbsorbedD_par1_ord]
    have hm : m + 1 - 1 = m := by omega
    rw [hm, if_pos rfl]
    ring
  · rw [List.sum_cons]
    unfold dualPmfList
    rw [list_range_map_sum]
    have hterm : ∀ k, stepAbsorbedD 1 1 p (1 - p - q)
        (iterStateD 1 p (1 - p - q) q (initStateAt 0) k) = (1 - p - q) * q ^ k := by
      intro k
      rw [iterStateD_par1, stepAbsorbedD_par1_ord, if_pos rfl]
      ring
    rw [Finset.sum_congr rfl (fun k _ => hterm k), zero_add, ← Finset.mul_sum]
    have hg := one_sub_mul_geom q n_max
    calc (1 - q) * ((1 - p - q) * ∑ k ∈ Finset.range n_max, q ^ k)
        = (1 - p - q) * ((1 - q) * ∑ k ∈ Finset.range n_max, q ^ k) := by ring
      _ = (1 - p - q) * (1 - q ^ n_max) := by rw [hg]

/-- Witness for the amended C4 at p = 1/2, q = 1/4, n_max = 3, n = 2. -/
theorem hardy_finish_pmf_ij_par1_geometric_witness :
    ∃ f : List ℚ,
      hardy_finish_pmf_ij 1 0 1 (1/2) (1/4) 3 = .ok (nArrayList 3, f)
      ∧ f.getD 2 0 = (1 - 1/2 - 1/4) * (1/4) ^ (2 - 1)
      ∧ (1 - 1/4) * f.sum = (1 - 1/2 - 1/4) * (1 - (1/4) ^ 3) :=
  hardy_finish_pmf_ij_par1_geometric (1/2) (1/4) 3 2 (by norm_num) (by norm_num)
    (by norm_num) (by norm_num) (by norm_num)

/-- Witness for the amended C5 at par = 3, i = 0, j = 3, p = 1/3, q = 1/5,
n_max = 2 (closed instance of the validation characterization). -/
theorem validation_invalidParameter_iff_witness :
    (hardy_finish_pmf_ij 3 0 3 (1/3) (1/5) 2 = .error PyErr.invalidParameter
        ↔ (((1:ℚ)/3 < 0 ∨ (1:ℚ)/5 < 0 ∨ (1:ℚ)/3 + 1/5 ≥ 1) ∨ (3:ℤ) < 1
            ∨ ¬((0:ℤ) ≤ 0 ∧ (0:ℤ) ≤ 3 + 1) ∨ ¬((3:ℤ) = 3 ∨ (3:ℤ) = 3 + 1)))
    ∧ (hardy_distribution_markov 3 (1/3) (1/5) 2 = .error PyErr.invalidParameter
        ↔ ((1:ℚ)/3 < 0 ∨ (1:ℚ)/5 < 0 ∨ (1:ℚ)/3 + 1/5 ≥ 1))
    ∧ (¬((1:ℚ)/3 < 0 ∨ (1:ℚ)/5 < 0 ∨ (1:ℚ)/3 + 1/5 ≥ 1) → (3:ℤ) < 0 →
        hardy_distribution_markov 3 (1/3) (1/5) 2 = .error PyErr.negativeDimensions)
    ∧ (¬((1:ℚ)/3 < 0 ∨ (1:ℚ)/5 < 0 ∨ (1:ℚ)/3 + 1/5 ≥ 1) → (3:ℤ) = 0 →
        hardy_distribution_markov 3 (1/3) (1/5) 2 = .error PyErr.indexError) :=
  validation_invalidParameter_iff 3 0 3 (1/3) (1/5) 2

theorem dualPmfList_append (par jn : ℕ) (pg po pb : ℚ) (v : ℕ → ℚ) (n n' : ℕ)
    (h : n ≤ n') :
    ∃ t, dualPmfList par jn pg po pb v n ++ t = dualPmfList par jn pg po pb v n' := by
  refine ⟨(dualPmfList par jn pg po pb v n').drop n, ?_⟩
  have htake : dualPmfList par jn pg po pb v n
      = (dualPmfList par jn pg po pb v n').take n := by
    unfold dualPmfList
    rw [range_map_take _ _ _ h]
  rw [htake, List.take_append_drop]

theorem singlePmfList_append (par : ℕ) (pg po pb : ℚ) (v : ℕ → ℚ) (n n' : ℕ)
    (h : n ≤ n') :
    ∃ t, singlePmfList par pg po pb v n ++ t = singlePmfList par pg po pb v n' := by
  refine ⟨(singlePmfList par pg po pb v n').drop n, ?_⟩
  have htake : singlePmfList par pg po pb v n
      = (singlePmfList par pg po pb v n').take n := by
    unfold singlePmfList
    rw [range_map_take _ _ _ h]
  rw [htake, List.take_append_drop]

/-- C9: enlarging the horizon only appends entries: for n ≤ n', the pmf
computed with horizon n is a prefix (entry-for-entry initial segment) of
the pmf computed with horizon n', for both solvers. -/
theorem horizon_stability (par_m i j : ℤ) (p q : ℚ) (n n' : ℕ)
    (hp : 0 ≤ p) (hq : 0 ≤ q) (hpq : p + q < 1) (hpar : 1 ≤ par_m)
    (hi : 0 ≤ i ∧ i ≤ par_m + 1) (hj : j = par_m ∨ j = par_m + 1) (hnn : n ≤ n') :
    (∃ f f' t : List ℚ,
      hardy_finish_pmf_ij par_m i j p q n = .ok (nArrayList n, f)
      ∧ hardy_finish_pmf_ij par_m i j p q n' = .ok (nArrayList n', f')
      ∧ f ++ t = f')
    ∧ (∃ g g' u : List ℚ,
      hardy_distribution_markov par_m p q n = .ok (scoresList n, g)
      ∧ hardy_distribution_markov par_m p q n' = .ok (scoresList n', g')
      ∧ g ++ u = g') := by
  have hprobs : ¬(p < 0 ∨ q < 0 ∨ p + q ≥ 1) := by push_neg; exact ⟨hp, hq, hpq⟩
  have h2 : ¬par_m < 1 := by omega
  have h3 : ¬¬(0 ≤ i ∧ i ≤ par_m + 1) := by omega
  have h4 : ¬¬(j = par_m ∨ j = par_m + 1) := by omega
  have h5 : ¬par_m < 0 := by omega
  have h6 : ¬par_m = 0 := by omega
  constructor
  · unfold hardy_finish_pmf_ij
    rw [if_neg hprobs, if_neg h2, if_neg h3, if_neg h4,
      if_neg hprobs, if_neg h2, if_neg h3, if_neg h4]
    split_ifs
    all_goals first
      | (refine ⟨1 :: List.replicate n 0, 1 :: List.replicate n' 0,
          List.replicate (n' - n) 0, rfl, rfl, ?_⟩
         rw [List.cons_append, ← List.replicate_add]
         congr 2
         omega)
      | (refine ⟨List.replicate (n + 1) 0, List.replicate (n' + 1) 0,
          List.replicate (n' - n) 0, rfl, rfl, ?_⟩
         rw [← List.replicate_add]
         congr 1
         omega)
      | (obtain ⟨t0, ht0⟩ := dualPmfList_append par_m.toNat j.toNat p (1 - p - q) q
          (initStateAt i.toNat) n n' hnn
         refine ⟨0 :: dualPmfList par_m.toNat j.toNat p (1 - p - q) q (initStateAt i.toNat) n,
           0 :: dualPmfList par_m.toNat j.toNat p (1 - p - q) q (initStateAt i.toNat) n',
           t0, rfl, rfl, ?_⟩
         rw [List.cons_append, ht0])
  · unfold hardy_distribution_markov
    rw [if_neg hprobs, if_neg h5, if_neg h6, if_neg hprobs, if_neg h5, if_neg h6]
    obtain ⟨u0, hu0⟩ := singlePmfList_append par_m.toNat p (1 - p - q) q
      (initStateAt 0) n n' hnn
    exact ⟨singlePmfList par_m.toNat p (1 - p - q) q (initStateAt 0) n,
      singlePmfList par_m.toNat p (1 - p - q) q (initStateAt 0) n', u0, rfl, rfl, hu0⟩

/-- Witness for C9 at par = 4, i = 0, j = 4, p = 2/5, q = 1/10, n = 2, n' = 5. -/
theorem horizon_stability_witness :
    (∃ f f' t : List ℚ,
      hardy_finish_pmf_ij 4 0 4 (2/5) (1/10) 2 = .ok (nArrayList 2, f)
      ∧ hardy_finish_pmf_ij 4 0 4 (2/5) (1/10) 5 = .ok (nArrayList 5, f')
      ∧ f ++ t = f')
    ∧ (∃ g g' u : List ℚ,
      hardy_distribution_markov 4 (2/5) (1/10) 2 = .ok (scoresList 2, g)
      ∧ hardy_distribution_markov 4 (2/5) (1/10) 5 = .ok (scoresList 5, g')
      ∧ g ++ u = g') :=
  horizon_stability 4 0 4 (2/5) (1/10) 2 5 (by norm_num) (by norm_num) (by norm_num)
    (by norm_num) (by norm_num) (by norm_num) (by norm_num)

theorem totalAfter_succ (stream : ℕ → Fin 3) (k : ℕ) :
    totalAfter stream (k + 1) = totalAfter stream k + shotValue (stream k) := by
  unfold totalAfter
  rw [Finset.sum_range_succ]

theorem totalAfter_zero (stream : ℕ → Fin 3) : totalAfter stream 0 = 0 := by
  unfold totalAfter
  exact Finset.sum_range_zero _

/-- If the accumulated value first reaches par at shot k ≤ max_shots, the
loop returns k from any position score ≤ k whose total is on track. -/
theorem simLoop_reach (par_m : ℤ) (stream : ℕ → Fin 3) (max_shots k : ℕ)
    (hk : k ≤ max_shots) (hhit : par_m ≤ totalAfter stream k)
    (hbefore : ∀ m < k, totalAfter stream m < par_m) :
    ∀ d score, score ≤ k → k - score = d →
      simLoop par_m stream max_shots score (totalAfter stream score) = .ok k := by
  intro d
  induction d with
  | zero =>
      intro score hsc hd
      have hek : score = k := by omega
      subst hek
      unfold simLoop
      rw [if_neg (by omega)]
  | succ d ih =>
      intro score hsc hd
      have hlt : score < k := by omega
      have hbelow : totalAfter stream score < par_m := hbefore score hlt
      unfold simLoop
      rw [if_pos hbelow, dif_neg (by omega : ¬score + 1 > max_shots),
        ← totalAfter_succ]
      exact ih (score + 1) (by omega) (by omega)

/-- If the accumulated value stays below par through shot max_shots, the
loop fails with the bound error from any position score ≤ max_shots. -/
theorem simLoop_exceed (par_m : ℤ) (stream : ℕ → Fin 3) (max_shots : ℕ)
    (hall : ∀ m ≤ max_shots, totalAfter stream m < par_m) :
    ∀ d score, score ≤ max_shots → max_shots - score = d →
      simLoop par_m stream max_shots score (totalAfter stream score)
        = .error .boundExceeded := by
  intro d
  induction d with
  | zero =>
      intro score hsc hd
      have hek : score = max_shots := by omega
      subst hek
      unfold simLoop
      rw [if_pos (hall _ (le_refl _)), dif_pos (by omega)]
  | succ d ih =>
      intro score hsc hd
      unfold simLoop
      rw [if_pos (hall _ hsc), dif_neg (by omega : ¬score + 1 > max_shots),
        ← totalAfter_succ]
      exact ih (score + 1) (by omega) (by omega)

/-- C6: with valid probabilities, the simulator returns k exactly when the
accumulated value first reaches or exceeds par on shot k with
k ≤ max_shots, and raises the bound error exactly when the accumulated
value is still below par after max_shots shots. -/
theorem simulate_hole_hardy_spec (par_m : ℤ) (p q : ℚ) (stream : ℕ → Fin 3)
    (max_shots : ℕ) (hp : 0 ≤ p) (hq : 0 ≤ q) (hpq : p + q < 1)
    (_hpar : 1 ≤ par_m) :
    (∀ k, simulate_hole_hardy par_m p q stream max_shots = .ok k
        ↔ (k ≤ max_shots ∧ par_m ≤ totalAfter stream k
            ∧ ∀ m < k, totalAfter stream m < par_m))
    ∧ (simulate_hole_hardy par_m p q stream max_shots = .error PyErr.boundExceeded
        ↔ ∀ m ≤ max_shots, totalAfter stream m < par_m) := by
  have hsim : simulate_hole_hardy par_m p q stream max_shots
      = simLoop par_m stream max_shots 0 0 := by
    unfold simulate_hole_hardy
    rw [if_neg (by push_neg; exact ⟨hp, hq, hpq⟩)]
  by_cases hex : ∃ k, k ≤ max_shots ∧ par_m ≤ totalAfter stream k
  · obtain ⟨k1, hk1max, hk1P⟩ := hex
    have hPex : ∃ k, par_m ≤ totalAfter stream k := ⟨k1, hk1P⟩
    have hP0 : par_m ≤ totalAfter stream (Nat.find hPex) := Nat.find_spec hPex
    have hmin : ∀ m < Nat.find hPex, totalAfter stream m < par_m := by
      intro m hm
      have hnot := Nat.find_min hPex hm
      omega
    have hk0le : Nat.find hPex ≤ max_shots :=
      le_trans (Nat.find_min' hPex hk1P) hk1max
    have hrun : simLoop par_m stream max_shots 0 0 = .ok (Nat.find hPex) := by
      have hr := simLoop_reach par_m stream max_shots (Nat.find hPex) hk0le hP0 hmin
        (Nat.find hPex - 0) 0 (by omega) rfl
      rw [totalAfter_zero] at hr
      exact hr
    constructor
    · intro k
      constructor
      · intro h
        rw [hsim, hrun] at h
        obtain rfl : Nat.find hPex = k := Except.ok.inj h
        exact ⟨hk0le, hP0, hmin⟩
      · rintro ⟨hkmax, hkP, hkmin⟩
        have hkeq : k = Nat.find hPex := by
          by_contra hne
          rcases Nat.lt_or_ge k (Nat.find hPex) with hlt | hge
          · exact absurd hkP (not_le.mpr (hmin k hlt))
          · have hlt2 : Nat.find hPex < k := by omega
            exact absurd hP0 (not_le.mpr (hkmin _ hlt2))
        rw [hsim, hrun, hkeq]
    · constructor
      · intro h
        rw [hsim, hrun] at h
        exact Except.noConfusion h
      · intro hall
        exact absurd hP0 (not_le.mpr (hall _ hk0le))
  · push_neg at hex
    have hrun : simLoop par_m stream max_shots 0 0 = .error .boundExceeded := by
      have hr := simLoop_exceed par_m stream max_shots hex
        (max_shots - 0) 0 (by omega) rfl
      rw [totalAfter_zero] at hr
      exact hr
    constructor
    · intro k
      constructor
      · intro h
        rw [hsim, hrun] at h
        exact Except.noConfusion h
      · rintro ⟨hkmax, hkP, _⟩
        exact absurd hkP (not_le.mpr (hex k hkmax))
    · exact ⟨fun _ => hex, fun _ => by rw [hsim]; exact hrun⟩

/-- Witness for C6 at par = 1, p = 1/2, q = 1/4, the all-good stream,
max_shots = 19. -/
theorem simulate_hole_hardy_spec_witness :
    (∀ k, simulate_hole_hardy 1 (1/2) (1/4) (fun _ => 0) 19 = .ok k
        ↔ (k ≤ 19 ∧ (1:ℤ) ≤ totalAfter (fun _ => 0) k
            ∧ ∀ m < k, totalAfter (fun _ => 0) m < 1))
    ∧ (simulate_hole_hardy 1 (1/2) (1/4) (fun _ => 0) 19 = .error PyErr.boundExceeded
        ↔ ∀ m ≤ 19, totalAfter (fun _ => 0) m < 1) :=
  simulate_hole_hardy_spec 1 (1/2) (1/4) (fun _ => 0) 19 (by norm_num) (by norm_num)
    (by norm_num) (by norm_num)
